import Mathlib

/-!
Verification development for the ICH-Agent pipeline scripts.

This file contains a shallow embedding of the parts of the repository that
the checked properties talk about:

  * the text cleaning / normalization pipeline of `src/tts.py` and
    `src/text_normalizer.py` (Python `str.replace` and the specific `re.sub`
    patterns are embedded as explicit left-to-right scanners over `List Char`;
    regex `\s` and `str.strip` whitespace is modeled over the ASCII whitespace
    characters);
  * the retry loops of `tts.py::synthesize_batch` and
    `gen_vedio.py::synthesize_video` (sleep durations are modeled as exact
    rationals, which is faithful because `min(2.0 * attempts, 5.0)` involves
    only small integers, exactly representable in floating point);
  * the polling loop of `gen_vedio.py::main` (wall-clock readings are an
    abstract monotone-free sequence of rationals, one per loop iteration);
  * the `HookManager` of `tts_optional_features.py`, with file I/O outcomes
    supplied as explicit `Except` values;
  * the per-record control flow of `tts.py::synthesize_batch` and of the body
    of `gen_vedio.py::main`, with the external world (file existence, network
    and synthesis outcomes) supplied as oracles, and counters recording how
    many synthesis calls and file writes happen;
  * the argument post-processing of both `parse_args` functions.

Python strings are `List Char` (`Str`).  Fallible external calls are oracles
`Nat → Bool`; `None`-returning queries are `Option` valued.
-/

abbrev Str := List Char

/-- Python whitespace (`\s` in `re`, and `str.strip`), restricted to ASCII:
space, tab, newline, carriage return, vertical tab, form feed. -/
def isSpacePy (c : Char) : Bool :=
  (c == ' ') || (c == '\t') || (c == '\n') || (c == '\r') || (c == Char.ofNat 11) || (c == Char.ofNat 12)

/-- Generic left-to-right substitution scanner, the common core of Python
`re.sub` (for the concrete patterns used by the scripts) and `str.replace`.
The matcher `m` is tried at the current position; on `some (out, rest)` the
replacement `out` is emitted (and never rescanned, as in `re.sub`) and the
scan resumes at `rest`, which every matcher in this file returns as a proper
suffix of its input.  The `Nat` argument counts characters still to be
skipped, which keeps the recursion structural. -/
def substGo (m : Str → Option (Str × Str)) : Nat → Str → Str
  | _, [] => []
  | k+1, _ :: t => substGo m k t
  | 0, c :: t =>
    match m (c :: t) with
    | some (out, rest) => out ++ substGo m (t.length - rest.length) t
    | none => c :: substGo m 0 t

def subst (m : Str → Option (Str × Str)) (l : Str) : Str := substGo m 0 l

/-- Matcher for `str.replace(pat, repl)`: fires iff `pat` is a (nonempty)
prefix of the current position. -/
def replMatch (pat repl : Str) (l : Str) : Option (Str × Str) :=
  if pat ≠ [] ∧ pat.isPrefixOf l then some (repl, l.drop pat.length) else none

/-- Python `str.replace(pat, repl)` for nonempty `pat`. -/
def pyReplace (pat repl l : Str) : Str := subst (replMatch pat repl) l

/-- Matcher for `re.sub(r"\([^)]*\)", "", ...)`: an opening parenthesis with
some closing parenthesis after it; consumes through the first close. -/
def parenMatch (l : Str) : Option (Str × Str) :=
  match l with
  | '(' :: t =>
    match t.dropWhile (fun c => !(c == ')')) with
    | _ :: r => some ([], r)
    | [] => none
  | _ => none

def mmHgL : Str := ['m', 'm', 'H', 'g']

/-- `_replace_blood_pressure` (identical in `tts.py` and
`text_normalizer.py`): the replacement built from the two digit groups. -/
def bpRepl (sys dia : Str) : Str :=
  ("a systolic blood pressure of ").toList ++ sys
    ++ (" millimeters of mercury and a diastolic blood pressure of ").toList ++ dia
    ++ (" millimeters of mercury").toList

/-- Matcher for `re.sub(r"(\d+)/(\d+)\s*mmHg", _replace_blood_pressure, ...)`.
`(\d+)` greedy then `/` forces the maximal digit run; `\s*` greedy then the
literal `mmHg` forces the maximal whitespace run. -/
def bpMatch (l : Str) : Option (Str × Str) :=
  let d1 := l.takeWhile Char.isDigit
  if d1 = [] then none else
  match l.dropWhile Char.isDigit with
  | c0 :: r2 =>
    if c0 = '/' then
      let d2 := r2.takeWhile Char.isDigit
      if d2 = [] then none else
      let r3 := r2.dropWhile Char.isDigit
      let r4 := r3.dropWhile isSpacePy
      if mmHgL.isPrefixOf r4 then some (bpRepl d1 d2, r4.drop 4) else none
    else none
  | [] => none

def f1BP : Str := ("a systolic blood pressure of ").toList

def f2BP : Str := (" millimeters of mercury and a diastolic blood pressure of ").toList

def f3BP : Str := (" millimeters of mercury").toList

/-- Matcher for the `UNIT_PATTERNS` entries `(\d+)\s*(alt1|alt2|…)` with
replacement `\1 ++ replSuffix`; alternatives are tried in order as in the
regex alternation. -/
def unitMatch (lits : List Str) (replSuffix : Str) (l : Str) : Option (Str × Str) :=
  let d := l.takeWhile Char.isDigit
  if d = [] then none else
  let r := (l.dropWhile Char.isDigit).dropWhile isSpacePy
  match lits.find? (fun p => p.isPrefixOf r) with
  | some p => some (d ++ replSuffix, r.drop p.length)
  | none => none

/-- Matcher for `re.sub("c0+", "c0", ...)` (used with a space and with a
newline): a maximal run of `c0` collapses to a single `c0`. -/
def runMatch (c0 : Char) (l : Str) : Option (Str × Str) :=
  match l with
  | c :: t => if c = c0 then some ([c0], t.dropWhile (fun c2 => c2 == c0)) else none
  | [] => none

/-- Python `str.strip()` over the modeled whitespace. -/
def pyStrip (l : Str) : Str := ((l.dropWhile isSpacePy).reverse.dropWhile isSpacePy).reverse

def subBP (l : Str) : Str := subst bpMatch l

def subML (l : Str) : Str := subst (unitMatch [['m', 'L'], ['m', 'l']] (" milliliters").toList) l

def subMMHG (l : Str) : Str := subst (unitMatch [mmHgL] (" millimeters of mercury").toList) l

def subUG (l : Str) : Str := subst (unitMatch [['μ', 'g', '/', 'L']] (" micrograms per liter").toList) l

/-- `convert_medical_units` of `tts.py` (textually identical to
`_normalize_units` of `text_normalizer.py`): the blood-pressure substitution
followed by the three `UNIT_PATTERNS` substitutions in order. -/
def convert_medical_units (l : Str) : Str := subUG (subMMHG (subML (subBP l)))

/-- The noise-character stripping stage:
`.replace("*", "").replace("-", "").replace("#", "")`
(`_strip_noise_chars` in `text_normalizer.py`, first line of
`clean_text` in `tts.py`). -/
def strip_noise (l : Str) : Str := pyReplace ['#'] [] (pyReplace ['-'] [] (pyReplace ['*'] [] l))

def dearCurly : Str := ("Dear [Patient’s Name],").toList

def dearStraight : Str := ("Dear [Patient").toList ++ '\'' :: ("s Name],").toList

def removeParens (l : Str) : Str := subst parenMatch l

def expand_ich (l : Str) : Str := pyReplace ("ICH").toList ("intracerebral hemorrhage").toList l

def collapseSpaces (l : Str) : Str := subst (runMatch ' ') l

def collapseNewlines (l : Str) : Str := subst (runMatch '\n') l

/-- `_normalize_whitespace`: `re.sub(r" +", " ", t).strip()` then
`re.sub(r"\n+", "\n", t)`. -/
def normalize_whitespace (l : Str) : Str := collapseNewlines (pyStrip (collapseSpaces l))

/-- `clean_text` of `tts.py` (lines 105-122). -/
def clean_text (l : Str) : Str :=
  let c := strip_noise l
  let c := pyReplace dearCurly [] c
  let c := pyReplace dearStraight [] c
  let c := pyReplace ("AHA/ASA").toList [] c
  let c := pyReplace ("AHA").toList [] c
  let c := removeParens c
  let c := convert_medical_units c
  let c := expand_ich c
  normalize_whitespace c

/-- `normalize_text` of `text_normalizer.py` (lines 54-70). -/
def normalize_text (expand_acronyms : Bool) (l : Str) : Str :=
  let c := strip_noise l
  let c := pyReplace dearCurly [] c
  let c := pyReplace dearStraight [] c
  let c := pyReplace ("AHA/ASA").toList [] c
  let c := pyReplace ("AHA").toList [] c
  let c := removeParens c
  let c := convert_medical_units c
  let c := if expand_acronyms then expand_ich c else c
  normalize_whitespace c

/-- Matcher for `re.sub(r"\s*\n\s*", " ", ...)` in
`tts_extras.strip_newlines`: fires iff the maximal whitespace run at the
current position contains a newline, and consumes the whole run (greedy
`\s*`, backtracked to the last newline, then greedy `\s*` again). -/
def wsNlMatch (l : Str) : Option (Str × Str) :=
  if (l.takeWhile isSpacePy).contains '\n' then some ([' '], l.dropWhile isSpacePy) else none

/-- Matcher for `re.sub(r"\s+", " ", ...)`. -/
def wsRunMatch (l : Str) : Option (Str × Str) :=
  match l with
  | c :: _ => if isSpacePy c then some ([' '], l.dropWhile isSpacePy) else none
  | [] => none

/-- `strip_newlines` of `tts_extras.py`. -/
def strip_newlines (l : Str) : Str := pyStrip (subst wsRunMatch (subst wsNlMatch l))

/-- `clean_text_with_options` of `tts.py`: the external normalizer module is
present in the repository, so `base` comes from `normalize_text`, and the
extras module is present, so newline stripping uses
`tts_extras.strip_newlines`. -/
def clean_text_with_options (expand_acronyms strip_nl : Bool) (l : Str) : Str :=
  let base := normalize_text expand_acronyms l
  if strip_nl then strip_newlines base else base

/-! ## Retry loops -/

/-- The retry loop of `tts.py::synthesize_batch` (lines 234-252), run against
an attempt oracle (`o k` is the outcome of the call made with
`attempts = k`).  The first component counts calls made, the second reports
success, the third lists the sleep durations (seconds) in order.  The `Nat`
argument of the worker is the number of loop iterations still allowed
(`retries - attempts + 1`). -/
def ttsRetryGo (o : Nat → Bool) : Nat → Nat → Nat × Bool × List ℚ
  | 0, _ => (0, false, [])
  | n+1, k =>
    if o k then (1, true, [])
    else
      let r := ttsRetryGo o n (k+1)
      (r.1 + 1, r.2.1, (if 0 < n then [min (2 * ((k : ℚ) + 1)) 5] else []) ++ r.2.2)

def ttsRetry (o : Nat → Bool) (retries : Nat) : Nat × Bool × List ℚ := ttsRetryGo o (retries + 1) 0

/-- The retry loop of `gen_vedio.py::synthesize_video` (lines 105-125):
`attempt = 0; while attempt <= max(0, retries): post; on failure attempt += 1
and sleep min(2.0 * attempt, 5.0) if attempt <= retries`.  `retries` is an
`Int` as in the Python signature. -/
def videoRetryGo (o : Nat → Bool) (retries : Int) : Nat → Nat → Nat × Bool × List ℚ
  | 0, _ => (0, false, [])
  | n+1, k =>
    if o k then (1, true, [])
    else
      let r := videoRetryGo o retries n (k+1)
      (r.1 + 1, r.2.1, (if ((k : Int) + 1) ≤ retries then [min (2 * ((k : ℚ) + 1)) 5] else []) ++ r.2.2)

def videoRetry (o : Nat → Bool) (retries : Int) : Nat × Bool × List ℚ :=
  videoRetryGo o retries ((max 0 retries).toNat + 1) 0

/-! ## HookManager (`tts_optional_features.py`) -/

structure BatchRunState where
  failures : Nat
  successes : Nat
  deriving DecidableEq

structure HookManager where
  log_path : Bool
  summary_path : Bool
  max_failures : Option Int
  state : BatchRunState
  deriving DecidableEq

def on_item_success (h : HookManager) : HookManager :=
  { h with state := { h.state with successes := h.state.successes + 1 } }

def on_item_failure (h : HookManager) : HookManager :=
  { h with state := { h.state with failures := h.state.failures + 1 } }

/-- `should_abort`: `max_failures is not None and failures >= max_failures`. -/
def should_abort (h : HookManager) : Bool :=
  match h.max_failures with
  | none => false
  | some m => decide (m ≤ (h.state.failures : Int))

/-- `create_hooks`: a manager is created iff any feature is requested. -/
def create_hooks (log_path summary_path : Bool) (max_failures : Option Int) : Option HookManager :=
  if log_path = false ∧ summary_path = false ∧ max_failures = none then none
  else some ⟨log_path, summary_path, max_failures, ⟨0, 0⟩⟩

/-- The operations a batch run performs on a `HookManager`. -/
inductive HookOp
  | run_start
  | item_success
  | item_failure
  | finalize
  deriving DecidableEq

def hook_apply : HookOp → HookManager → HookManager
  | .item_success, h => on_item_success h
  | .item_failure, h => on_item_failure h
  | .run_start, h => h
  | .finalize, h => h

def hook_apply_list (ops : List HookOp) (h : HookManager) : HookManager :=
  ops.foldl (fun h op => hook_apply op h) h

/-! ## Telemetry I/O error handling -/

inductive PyErr
  | ioError
  deriving DecidableEq

/-- A Python `try: body except Exception: pass` block around unit-valued I/O. -/
def tryPass (body : Except PyErr Unit) : Except PyErr Unit :=
  match body with
  | .ok u => .ok u
  | .error _ => .ok ()

/-- `HookManager._append_log` (lines 95-103): returns immediately when no log
path is configured, otherwise performs the open-and-write (whose outcome is
the oracle `io`) inside try/except-pass. -/
def append_log (log_path : Bool) (io : Except PyErr Unit) : Except PyErr Unit :=
  if log_path then tryPass io else .ok ()

/-- The module-level `_write_json` (lines 129-135): mkdir, open and dump,
all inside try/except-pass; `io` is the outcome of that body. -/
def hook_write_json (io : Except PyErr Unit) : Except PyErr Unit := tryPass io

/-- `HookManager.finalize` (lines 81-93): append the summary event to the
log, then, if a summary path is configured, write the summary JSON.
Exceptions from either step would propagate from `finalize` itself. -/
def hooks_finalize (h : HookManager) (io1 io2 : Except PyErr Unit) : Except PyErr Unit :=
  match append_log h.log_path io1 with
  | .ok _ => if h.summary_path then hook_write_json io2 else .ok ()
  | .error e => .error e

/-! ## Polling loop (`gen_vedio.py::main`, lines 212-222) -/

/-- The value of `status.get("status")` on a successfully parsed payload. -/
inductive JVal
  | jstr (s : Str)
  | jnum (n : Int)
  | jother
  deriving DecidableEq

/-- `status.get("status") in ("completed", "done", 2)`. -/
def recognizedStatus (v : JVal) : Bool :=
  v = JVal.jstr ("completed").toList ∨ v = JVal.jstr ("done").toList ∨ v = JVal.jnum 2

/-- A query result counts as complete iff the query succeeded (`status is not
None`) and its status field is recognized. -/
def isComplete (st : Option JVal) : Bool :=
  match st with
  | none => false
  | some v => recognizedStatus v

inductive PollResult
  | completed (k : Nat)
  | timedOut (k : Nat)
  deriving DecidableEq

/-- The polling loop: `q k` is the k-th query result, `t k` the wall-clock
reading at the k-th `while time.time() < deadline` test.  `fuel` bounds the
number of iterations modeled; `none` means the fuel ran out first. -/
def pollLoopGo (q : Nat → Option JVal) (t : Nat → ℚ) (deadline : ℚ) : Nat → Nat → Option PollResult
  | 0, _ => none
  | fuel+1, k =>
    if t k < deadline then
      if isComplete (q k) then some (.completed k)
      else pollLoopGo q t deadline fuel (k+1)
    else some (.timedOut k)

def pollLoop (q : Nat → Option JVal) (t : Nat → ℚ) (deadline : ℚ) (fuel : Nat) : Option PollResult :=
  pollLoopGo q t deadline fuel 0

/-! ## Argument post-processing -/

/-- The clamped fields of the config built by `tts.py::parse_args`
(lines 337-356). -/
structure TTSArgs where
  retries : Int
  sleep_seconds : ℚ
  deriving DecidableEq

def tts_parse_args (retries : Int) (sleep_seconds : ℚ) : TTSArgs :=
  ⟨max 0 retries, max 0 sleep_seconds⟩

/-- The clamped fields of the config built by `gen_vedio.py::parse_args`
(lines 155-170). -/
structure VideoArgs where
  retries : Int
  timeout : ℚ
  sleep_seconds : ℚ
  poll_interval : ℚ
  poll_timeout : ℚ
  deriving DecidableEq

def video_parse_args (retries : Int) (timeout sleep_seconds poll_interval poll_timeout : ℚ) : VideoArgs :=
  ⟨max 0 retries, max 1 timeout, max 0 sleep_seconds, max (1/2) poll_interval, max 1 poll_timeout⟩

/-! ## Batch synthesis (`tts.py::synthesize_batch`) -/

structure TTSConfig where
  dry_run : Bool
  resume : Bool
  write_metadata : Bool
  strip_newlines : Bool
  expand_acronyms : Bool
  /-- `retries` is nonnegative in any config built by `parse_args`
  (`max(0, int(args.retries))`). -/
  retries : Nat
  hooks_log : Bool
  run_summary : Bool
  max_failures : Option Int
  deriving DecidableEq

/-- One input record; `none` models a missing or non-string `content`. -/
structure TTSItem where
  content : Option Str
  deriving DecidableEq

/-- The external world of a batch run: file existence and the synthesis
outcome for each (record index, attempt) pair. -/
structure TTSWorld where
  speaker_wav_exists : Bool
  wav_exists : Nat → Bool
  synth_ok : Nat → Nat → Bool

structure BatchSt where
  successes : Nat
  failures : Nat
  tts_calls : Nat
  wav_writes : Nat
  meta_writes : Nat
  hooks : Option HookManager
  deriving DecidableEq

structure RunResult where
  file_error : Bool
  model_loaded : Bool
  successes : Nat
  failures : Nat
  tts_calls : Nat
  wav_writes : Nat
  meta_writes : Nat
  hooks : Option HookManager
  deriving DecidableEq

/-- Register a failure with the hooks (if any) and report whether the run
should abort, mirroring the
`hooks.on_item_failure(...); if hooks.should_abort(): break` sequence. -/
def hooksFailure (hooks : Option HookManager) : Option HookManager × Bool :=
  match hooks with
  | none => (none, false)
  | some h =>
    let h2 := on_item_failure h
    (some h2, should_abort h2)

/-- The body of the `for i, item in enumerate(data, start=1)` loop of
`synthesize_batch` (lines 186-292).  Returns the updated state and `true`
iff the loop continues with the next record (`false` models `break`). -/
def processItem (cfg : TTSConfig) (w : TTSWorld) (i : Nat) (item : TTSItem) (st : BatchSt) : BatchSt × Bool :=
  let invalid :=
    let (hooks2, abort) := hooksFailure st.hooks
    ({ st with failures := st.failures + 1, hooks := hooks2 }, !abort)
  match item.content with
  | none => invalid
  | some c =>
    if pyStrip c = [] then invalid
    else
      -- `cleaned` replaces `item["content"]`; it feeds synthesis and metadata.
      let _cleaned := clean_text_with_options cfg.expand_acronyms cfg.strip_newlines c
      -- Resume behavior via `tts_extras.should_skip(out_wav, resume)`.
      if cfg.resume && w.wav_exists i then (st, true)
      else
        let afterBranch : BatchSt × Bool :=
          if cfg.dry_run then
            let hooks2 := match st.hooks with
              | some h => some (on_item_success h)
              | none => none
            ({ st with hooks := hooks2, successes := st.successes + 1 }, true)
          else
            let r := ttsRetry (w.synth_ok i) cfg.retries
            if r.2.1 then
              let hooks2 := match st.hooks with
                | some h => some (on_item_success h)
                | none => none
              ({ st with tts_calls := st.tts_calls + r.1, wav_writes := st.wav_writes + 1,
                         hooks := hooks2, successes := st.successes + 1 }, true)
            else
              let (hooks2, abort) := hooksFailure st.hooks
              ({ st with tts_calls := st.tts_calls + r.1, failures := st.failures + 1,
                         hooks := hooks2 }, !abort)
        match afterBranch with
        | (st2, false) => (st2, false)
        | (st2, true) =>
          if !cfg.dry_run && !(ttsRetry (w.synth_ok i) cfg.retries).2.1 then
            -- the live failure path reached `continue`, skipping the rest
            (st2, true)
          else
            -- lines 265-267: `if config.dry_run and hooks is None: successes += 1`
            let st3 :=
              if cfg.dry_run && st2.hooks.isNone then { st2 with successes := st2.successes + 1 }
              else st2
            let st4 :=
              if cfg.write_metadata then { st3 with meta_writes := st3.meta_writes + 1 }
              else st3
            match st4.hooks with
            | some h => (st4, !should_abort h)
            | none => (st4, true)

def processItems (cfg : TTSConfig) (w : TTSWorld) : Nat → List TTSItem → BatchSt → BatchSt
  | _, [], st => st
  | i, item :: rest, st =>
    match processItem cfg w i item st with
    | (st2, true) => processItems cfg w (i+1) rest st2
    | (st2, false) => st2

/-- `synthesize_batch` (lines 157-298): hooks are created, then the speaker
reference wav is checked (raising `FileNotFoundError` before the TTS model is
constructed and before any record is touched), then the model is loaded and
each record processed in order. -/
def synthesize_batch (cfg : TTSConfig) (w : TTSWorld) (items : List TTSItem) : RunResult :=
  let hooks0 := create_hooks cfg.hooks_log cfg.run_summary cfg.max_failures
  if !w.speaker_wav_exists then
    { file_error := true, model_loaded := false, successes := 0, failures := 0,
      tts_calls := 0, wav_writes := 0, meta_writes := 0, hooks := hooks0 }
  else
    let st := processItems cfg w 1 items ⟨0, 0, 0, 0, 0, hooks0⟩
    { file_error := false, model_loaded := true, successes := st.successes,
      failures := st.failures, tts_calls := st.tts_calls, wav_writes := st.wav_writes,
      meta_writes := st.meta_writes, hooks := st.hooks }

/-! ## Per-record body of `gen_vedio.py::main` (lines 182-225) -/

structure VideoConfig where
  dry_run : Bool
  resume : Bool
  write_metadata : Bool
  retries : Int
  poll_progress : Bool
  poll_timeout : ℚ
  deriving DecidableEq

structure VideoItemResult where
  skipped : Bool
  submit_calls : Nat
  meta_writes : Nat
  submit_ok : Bool
  poll : Option PollResult
  deriving DecidableEq

/-- One iteration of the task loop: resume check via
`gen_video_extras.should_skip_task(meta_path, resume)`, then dry-run or
submission with retry, then optional metadata sidecar, then optional
polling.  `metaExists` is whether the metadata sidecar for this task exists,
`submitO` the submission outcome per attempt, `q`/`t`/`fuel` drive the poll
loop, and `startTime` is the wall clock when the poll deadline is fixed. -/
def gen_video_item (cfg : VideoConfig) (metaExists : Bool) (submitO : Nat → Bool)
    (q : Nat → Option JVal) (t : Nat → ℚ) (startTime : ℚ) (fuel : Nat) : VideoItemResult :=
  if cfg.resume && metaExists then ⟨true, 0, 0, false, none⟩
  else
    let sub : Nat × Bool :=
      if cfg.dry_run then (0, true)
      else
        let r := videoRetry submitO cfg.retries
        (r.1, r.2.1)
    if !sub.2 then ⟨false, sub.1, 0, false, none⟩
    else
      let mw := if cfg.write_metadata then 1 else 0
      let pr :=
        if cfg.poll_progress && !cfg.dry_run then pollLoop q t (startTime + cfg.poll_timeout) fuel
        else none
      ⟨false, sub.1, mw, true, pr⟩

/-! ## Helper lemmas -/

theorem hook_apply_max_failures (op : HookOp) (h : HookManager) :
    (hook_apply op h).max_failures = h.max_failures := by
  cases op <;> rfl

theorem hook_apply_failures_le (op : HookOp) (h : HookManager) :
    h.state.failures ≤ (hook_apply op h).state.failures := by
  cases op <;> simp [hook_apply, on_item_success, on_item_failure]

theorem should_abort_mono (op : HookOp) (h : HookManager) :
    should_abort h = true → should_abort (hook_apply op h) = true := by
  intro habort
  unfold should_abort at habort ⊢
  rw [hook_apply_max_failures]
  cases hm : h.max_failures with
  | none => rw [hm] at habort; exact absurd habort (by simp)
  | some m =>
    rw [hm] at habort
    simp only [decide_eq_true_eq] at habort ⊢
    calc m ≤ (h.state.failures : Int) := habort
      _ ≤ ((hook_apply op h).state.failures : Int) := by
          exact_mod_cast hook_apply_failures_le op h

/-! ## Claim theorems -/

/-- Claim C6: the telemetry recorder never raises from its own I/O.  For
every configuration and every outcome of the underlying file writes, the
log-append, summary-write and finalize operations of the hook manager return
normally: the exception is swallowed, so a telemetry failure cannot
propagate into the main batch loop. -/
theorem telemetry_never_raises :
    ∀ (lp : Bool) (io1 io2 : Except PyErr Unit) (h : HookManager),
      append_log lp io1 = .ok () ∧ hook_write_json io2 = .ok () ∧
        hooks_finalize h io1 io2 = .ok () := by
  intro lp io1 io2 h
  obtain ⟨hl, hs, hm, hst⟩ := h
  cases io1 <;> cases io2 <;> cases lp <;> cases hl <;> cases hs <;>
    simp [append_log, hook_write_json, tryPass, hooks_finalize]

/-- Claim C9: the configurations produced by argument parsing satisfy the
bounds `retries ≥ 0` and `sleep_seconds ≥ 0` in both scripts, and in the
video script additionally `timeout ≥ 1`, `poll_interval ≥ 0.5` and
`poll_timeout ≥ 1`, for arbitrary (possibly negative) user-supplied values.
The configs are plain values never reassigned after construction (neither
script writes to a config field), which the functional embedding reflects. -/
theorem parse_args_bounds :
    ∀ (r : Int) (s : ℚ) (r2 : Int) (tm sl pin pt : ℚ),
      0 ≤ (tts_parse_args r s).retries ∧ 0 ≤ (tts_parse_args r s).sleep_seconds ∧
      0 ≤ (video_parse_args r2 tm sl pin pt).retries ∧
      0 ≤ (video_parse_args r2 tm sl pin pt).sleep_seconds ∧
      1 ≤ (video_parse_args r2 tm sl pin pt).timeout ∧
      1/2 ≤ (video_parse_args r2 tm sl pin pt).poll_interval ∧
      1 ≤ (video_parse_args r2 tm sl pin pt).poll_timeout := by
  intro r s r2 tm sl pin pt
  exact ⟨le_max_left 0 r, le_max_left 0 s, le_max_left 0 r2, le_max_left 0 sl,
    le_max_left 1 tm, le_max_left (1/2) pin, le_max_left 1 pt⟩

/-- Claim C10: the hook manager's failure counter is monotone — every
operation leaves `state.failures` unchanged or increments it by one — and
consequently, once `should_abort` returns true it stays true after every
further sequence of hook operations. -/
theorem hook_failures_monotone :
    (∀ (op : HookOp) (h : HookManager),
        (hook_apply op h).state.failures = h.state.failures ∨
        (hook_apply op h).state.failures = h.state.failures + 1) ∧
    (∀ (ops : List HookOp) (h : HookManager),
        should_abort h = true → should_abort (hook_apply_list ops h) = true) := by
  constructor
  · intro op h
    cases op <;> simp [hook_apply, on_item_success, on_item_failure]
  · intro ops
    induction ops with
    | nil => intro h habort; exact habort
    | cons op rest ih =>
      intro h habort
      exact ih (hook_apply op h) (should_abort_mono op h habort)

theorem hook_failures_monotone_witness :
    should_abort ⟨false, false, some 1, ⟨1, 0⟩⟩ = true ∧
      should_abort (hook_apply_list [.item_success, .item_failure]
        ⟨false, false, some 1, ⟨1, 0⟩⟩) = true :=
  ⟨by decide,
    hook_failures_monotone.2 [.item_success, .item_failure] ⟨false, false, some 1, ⟨1, 0⟩⟩
      (by decide)⟩

/-- Claim C8: if the configured speaker reference wav does not exist,
`synthesize_batch` fails before loading the TTS model and before touching
any record: no synthesis call is made and no file is written. -/
theorem speaker_wav_missing_aborts :
    ∀ (cfg : TTSConfig) (w : TTSWorld) (items : List TTSItem),
      w.speaker_wav_exists = false →
      (synthesize_batch cfg w items).file_error = true ∧
      (synthesize_batch cfg w items).model_loaded = false ∧
      (synthesize_batch cfg w items).tts_calls = 0 ∧
      (synthesize_batch cfg w items).wav_writes = 0 ∧
      (synthesize_batch cfg w items).meta_writes = 0 ∧
      (synthesize_batch cfg w items).successes = 0 ∧
      (synthesize_batch cfg w items).failures = 0 := by
  intro cfg w items h
  simp [synthesize_batch, h]

theorem speaker_wav_missing_aborts_witness :
    (synthesize_batch ⟨false, false, false, false, true, 0, false, false, none⟩
        ⟨false, fun _ => false, fun _ _ => false⟩ [⟨some ['h', 'i']⟩]).file_error = true ∧
    (synthesize_batch ⟨false, false, false, false, true, 0, false, false, none⟩
        ⟨false, fun _ => false, fun _ _ => false⟩ [⟨some ['h', 'i']⟩]).model_loaded = false ∧
    (synthesize_batch ⟨false, false, false, false, true, 0, false, false, none⟩
        ⟨false, fun _ => false, fun _ _ => false⟩ [⟨some ['h', 'i']⟩]).tts_calls = 0 ∧
    (synthesize_batch ⟨false, false, false, false, true, 0, false, false, none⟩
        ⟨false, fun _ => false, fun _ _ => false⟩ [⟨some ['h', 'i']⟩]).wav_writes = 0 ∧
    (synthesize_batch ⟨false, false, false, false, true, 0, false, false, none⟩
        ⟨false, fun _ => false, fun _ _ => false⟩ [⟨some ['h', 'i']⟩]).meta_writes = 0 ∧
    (synthesize_batch ⟨false, false, false, false, true, 0, false, false, none⟩
        ⟨false, fun _ => false, fun _ _ => false⟩ [⟨some ['h', 'i']⟩]).successes = 0 ∧
    (synthesize_batch ⟨false, false, false, false, true, 0, false, false, none⟩
        ⟨false, fun _ => false, fun _ _ => false⟩ [⟨some ['h', 'i']⟩]).failures = 0 :=
  speaker_wav_missing_aborts _ _ _ rfl

/-- Claim C5: with resume mode enabled and the expected output artifact
already present (the wav for TTS, the metadata sidecar for video), a record
is skipped entirely — the state is returned untouched, so no synthesis or
network call happens and nothing is written for it; with resume disabled,
artifact existence has no influence on processing. -/
theorem resume_skips_existing :
    (∀ (cfg : TTSConfig) (w : TTSWorld) (i : Nat) (c : Str) (st : BatchSt),
        pyStrip c ≠ [] → cfg.resume = true → w.wav_exists i = true →
        processItem cfg w i ⟨some c⟩ st = (st, true)) ∧
    (∀ (cfg : TTSConfig) (sw : Bool) (e1 e2 : Nat → Bool) (so : Nat → Nat → Bool)
        (i : Nat) (item : TTSItem) (st : BatchSt),
        cfg.resume = false →
        processItem cfg ⟨sw, e1, so⟩ i item st = processItem cfg ⟨sw, e2, so⟩ i item st) ∧
    (∀ (cfg : VideoConfig) (submitO : Nat → Bool) (q : Nat → Option JVal) (t : Nat → ℚ)
        (s0 : ℚ) (fuel : Nat),
        cfg.resume = true →
        gen_video_item cfg true submitO q t s0 fuel = ⟨true, 0, 0, false, none⟩) ∧
    (∀ (cfg : VideoConfig) (me1 me2 : Bool) (submitO : Nat → Bool) (q : Nat → Option JVal)
        (t : Nat → ℚ) (s0 : ℚ) (fuel : Nat),
        cfg.resume = false →
        gen_video_item cfg me1 submitO q t s0 fuel = gen_video_item cfg me2 submitO q t s0 fuel) := by
  refine ⟨?_, ?_, ?_, ?_⟩
  · intro cfg w i c st hc hr he
    simp [processItem, hc, hr, he]
  · intro cfg sw e1 e2 so i item st hr
    cases item with
    | mk content =>
      cases content with
      | none => rfl
      | some c => simp [processItem, hr]
  · intro cfg submitO q t s0 fuel hr
    simp [gen_video_item, hr]
  · intro cfg me1 me2 submitO q t s0 fuel hr
    simp [gen_video_item, hr]

theorem resume_skips_existing_witness :
    processItem ⟨false, true, false, false, true, 0, false, false, none⟩
        ⟨true, fun _ => true, fun _ _ => true⟩ 1 ⟨some ['h', 'i']⟩ ⟨0, 0, 0, 0, 0, none⟩ =
      (⟨0, 0, 0, 0, 0, none⟩, true) :=
  resume_skips_existing.1 ⟨false, true, false, false, true, 0, false, false, none⟩
    ⟨true, fun _ => true, fun _ _ => true⟩ 1 ['h', 'i'] ⟨0, 0, 0, 0, 0, none⟩
    (by decide) rfl rfl

/-- Claim C1 (evaluation at the failing input): with hooks disabled, a
dry run over a single valid record ends with `successes = 2` — the dry-run
branch increments the counter once at `tts.py` line 232 and lines 265-267
increment it again — while the corresponding live run in which synthesis
succeeds ends with `successes = 1`.  The dry run does make zero synthesis
calls and writes zero audio files, as claimed. -/
theorem dry_run_success_double_count :
    (synthesize_batch ⟨true, false, false, false, true, 0, false, false, none⟩
        ⟨true, fun _ => false, fun _ _ => true⟩ [⟨some ['h', 'i']⟩]).successes = 2 ∧
    (synthesize_batch ⟨false, false, false, false, true, 0, false, false, none⟩
        ⟨true, fun _ => false, fun _ _ => true⟩ [⟨some ['h', 'i']⟩]).successes = 1 ∧
    (synthesize_batch ⟨true, false, false, false, true, 0, false, false, none⟩
        ⟨true, fun _ => false, fun _ _ => true⟩ [⟨some ['h', 'i']⟩]).tts_calls = 0 ∧
    (synthesize_batch ⟨true, false, false, false, true, 0, false, false, none⟩
        ⟨true, fun _ => false, fun _ _ => true⟩ [⟨some ['h', 'i']⟩]).wav_writes = 0 ∧
    (synthesize_batch ⟨true, false, false, false, true, 0, false, false, none⟩
        ⟨true, fun _ => false, fun _ _ => true⟩ [⟨some ['h', 'i']⟩]).failures = 0 ∧
    (synthesize_batch ⟨false, false, false, false, true, 0, false, false, none⟩
        ⟨true, fun _ => false, fun _ _ => true⟩ [⟨some ['h', 'i']⟩]).failures = 0 := by
  refine ⟨by decide, by decide, by decide, by decide, by decide, by decide⟩

theorem ttsRetryGo_always_fail (o : Nat → Bool) (hfail : ∀ k, o k = false) :
    ∀ (n k : Nat),
      (ttsRetryGo o n k).1 = n ∧ (ttsRetryGo o n k).2.1 = false ∧
      List.Chain' (· ≤ ·) (ttsRetryGo o n k).2.2 ∧
      (∀ x ∈ (ttsRetryGo o n k).2.2, x ≤ 5) ∧
      (∀ x ∈ (ttsRetryGo o n k).2.2, min (2 * ((k : ℚ) + 1)) 5 ≤ x) := by
  intro n
  induction n with
  | zero => intro k; simp [ttsRetryGo]
  | succ n ih =>
    intro k
    obtain ⟨ih1, ih2, ih3, ih4, ih5⟩ := ih (k + 1)
    have hmono : min (2 * ((k : ℚ) + 1)) 5 ≤ min (2 * ((k : ℚ) + 1 + 1)) 5 := by
      apply min_le_min _ le_rfl
      linarith
    simp only [ttsRetryGo, hfail k, if_neg (Bool.false_ne_true)]
    refine ⟨by simp [ih1], by simp [ih2], ?_, ?_, ?_⟩
    · by_cases hn : 0 < n
      · simp only [if_pos hn, List.singleton_append]
        rw [List.chain'_cons']
        refine ⟨?_, ih3⟩
        intro b hb
        have hbmem : b ∈ (ttsRetryGo o n (k + 1)).2.2 := by
          cases hmem : (ttsRetryGo o n (k + 1)).2.2 with
          | nil => rw [hmem] at hb; simp at hb
          | cons a l =>
            rw [hmem] at hb
            simp only [List.head?_cons, Option.mem_some_iff] at hb
            subst hb
            exact List.mem_cons_self _ _
        calc min (2 * ((k : ℚ) + 1)) 5 ≤ min (2 * (((k : ℚ) + 1) + 1)) 5 := hmono
          _ ≤ b := by have := ih5 b hbmem; push_cast at this; linarith [this]
      · simp only [if_neg hn, List.nil_append]
        exact ih3
    · intro x hx
      by_cases hn : 0 < n
      · simp only [if_pos hn, List.singleton_append, List.mem_cons] at hx
        rcases hx with rfl | hx
        · exact min_le_right _ _
        · exact ih4 x hx
      · simp only [if_neg hn, List.nil_append] at hx
        exact ih4 x hx
    · intro x hx
      by_cases hn : 0 < n
      · simp only [if_pos hn, List.singleton_append, List.mem_cons] at hx
        rcases hx with rfl | hx
        · exact le_refl _
        · have := ih5 x hx
          have h2 : min (2 * ((k : ℚ) + 1)) 5 ≤ min (2 * (((k : ℚ) + 1) + 1)) 5 := by
            push_cast at hmono ⊢; linarith [hmono]
          calc min (2 * ((k : ℚ) + 1)) 5 ≤ min (2 * (((k : ℚ) + 1) + 1)) 5 := h2
            _ ≤ x := by push_cast at this ⊢; linarith [this]
      · simp only [if_neg hn, List.nil_append] at hx
        have := ih5 x hx
        have h2 : min (2 * ((k : ℚ) + 1)) 5 ≤ min (2 * (((k : ℚ) + 1) + 1)) 5 := by
          push_cast at hmono ⊢; linarith [hmono]
        calc min (2 * ((k : ℚ) + 1)) 5 ≤ min (2 * (((k : ℚ) + 1) + 1)) 5 := h2
          _ ≤ x := by push_cast at this ⊢; linarith [this]

theorem videoRetryGo_always_fail (o : Nat → Bool) (retries : Int) (hfail : ∀ k, o k = false) :
    ∀ (n k : Nat),
      (videoRetryGo o retries n k).1 = n ∧ (videoRetryGo o retries n k).2.1 = false ∧
      List.Chain' (· ≤ ·) (videoRetryGo o retries n k).2.2 ∧
      (∀ x ∈ (videoRetryGo o retries n k).2.2, x ≤ 5) ∧
      (∀ x ∈ (videoRetryGo o retries n k).2.2, min (2 * ((k : ℚ) + 1)) 5 ≤ x) := by
  intro n
  induction n with
  | zero => intro k; simp [videoRetryGo]
  | succ n ih =>
    intro k
    obtain ⟨ih1, ih2, ih3, ih4, ih5⟩ := ih (k + 1)
    have hmono : min (2 * ((k : ℚ) + 1)) 5 ≤ min (2 * ((k : ℚ) + 1 + 1)) 5 := by
      apply min_le_min _ le_rfl
      linarith
    simp only [videoRetryGo, hfail k, if_neg (Bool.false_ne_true)]
    refine ⟨by simp [ih1], by simp [ih2], ?_, ?_, ?_⟩
    · by_cases hs : ((k : Int) + 1) ≤ retries
      · simp only [if_pos hs, List.singleton_append]
        rw [List.chain'_cons']
        refine ⟨?_, ih3⟩
        intro b hb
        have hbmem : b ∈ (videoRetryGo o retries n (k + 1)).2.2 := by
          cases hmem : (videoRetryGo o retries n (k + 1)).2.2 with
          | nil => rw [hmem] at hb; simp at hb
          | cons a l =>
            rw [hmem] at hb
            simp only [List.head?_cons, Option.mem_some_iff] at hb
            subst hb
            exact List.mem_cons_self _ _
        have h5 := ih5 b hbmem
        push_cast at h5
        calc min (2 * ((k : ℚ) + 1)) 5 ≤ min (2 * ((k : ℚ) + 1 + 1)) 5 := hmono
          _ ≤ b := by linarith [h5]
      · simp only [if_neg hs, List.nil_append]
        exact ih3
    · intro x hx
      by_cases hs : ((k : Int) + 1) ≤ retries
      · simp only [if_pos hs, List.singleton_append, List.mem_cons] at hx
        rcases hx with rfl | hx
        · exact min_le_right _ _
        · exact ih4 x hx
      · simp only [if_neg hs, List.nil_append] at hx
        exact ih4 x hx
    · intro x hx
      by_cases hs : ((k : Int) + 1) ≤ retries
      · simp only [if_pos hs, List.singleton_append, List.mem_cons] at hx
        rcases hx with rfl | hx
        · exact le_refl _
        · have h5 := ih5 x hx
          push_cast at h5
          calc min (2 * ((k : ℚ) + 1)) 5 ≤ min (2 * ((k : ℚ) + 1 + 1)) 5 := hmono
            _ ≤ x := by linarith [h5]
      · simp only [if_neg hs, List.nil_append] at hx
        have h5 := ih5 x hx
        push_cast at h5
        calc min (2 * ((k : ℚ) + 1)) 5 ≤ min (2 * ((k : ℚ) + 1 + 1)) 5 := hmono
          _ ≤ x := by linarith [h5]

/-- Claim C2: for every retry count `N ≥ 0`, if every attempt fails then
both submission loops — the synthesis retry loop of
`tts.py::synthesize_batch` and `gen_vedio.py::synthesize_video` — perform
exactly `N + 1` calls before returning the failure signal, and the waits
between consecutive attempts are non-decreasing and capped at 5 seconds. -/
theorem retry_attempts_exact :
    ∀ (N : Nat) (o : Nat → Bool), (∀ k, o k = false) →
      (ttsRetry o N).1 = N + 1 ∧ (ttsRetry o N).2.1 = false ∧
      (videoRetry o (N : Int)).1 = N + 1 ∧ (videoRetry o (N : Int)).2.1 = false ∧
      List.Chain' (· ≤ ·) (ttsRetry o N).2.2 ∧ (∀ x ∈ (ttsRetry o N).2.2, x ≤ 5) ∧
      List.Chain' (· ≤ ·) (videoRetry o (N : Int)).2.2 ∧
      (∀ x ∈ (videoRetry o (N : Int)).2.2, x ≤ 5) := by
  intro N o hfail
  obtain ⟨h1, h2, h3, h4, _⟩ := ttsRetryGo_always_fail o hfail (N + 1) 0
  have hmax : ((max 0 (N : Int)).toNat + 1) = N + 1 := by
    rw [max_eq_right (Int.ofNat_nonneg N)]
    simp
  obtain ⟨g1, g2, g3, g4, _⟩ := videoRetryGo_always_fail o (N : Int) hfail ((max 0 (N : Int)).toNat + 1) 0
  rw [hmax] at g1
  exact ⟨h1, h2, g1, g2, h3, h4, g3, g4⟩

theorem retry_attempts_exact_witness :
    (ttsRetry (fun _ => false) 2).1 = 3 ∧ (videoRetry (fun _ => false) (2 : Int)).1 = 3 :=
  ⟨(retry_attempts_exact 2 (fun _ => false) (fun _ => rfl)).1,
    (retry_attempts_exact 2 (fun _ => false) (fun _ => rfl)).2.2.1⟩

theorem pollLoopGo_spec (q : Nat → Option JVal) (t : Nat → ℚ) (dl : ℚ) :
    ∀ (fuel k0 : Nat) (r : PollResult), pollLoopGo q t dl fuel k0 = some r →
      (∀ k, r = .completed k →
        k0 ≤ k ∧ t k < dl ∧ isComplete (q k) = true ∧
          ∀ j, k0 ≤ j → j < k → t j < dl ∧ isComplete (q j) = false) ∧
      (∀ k, r = .timedOut k →
        k0 ≤ k ∧ dl ≤ t k ∧
          ∀ j, k0 ≤ j → j < k → t j < dl ∧ isComplete (q j) = false) := by
  intro fuel
  induction fuel with
  | zero => intro k0 r h; exact absurd h (by simp [pollLoopGo])
  | succ fuel ih =>
    intro k0 r h
    rw [pollLoopGo] at h
    by_cases ht : t k0 < dl
    · rw [if_pos ht] at h
      by_cases hc : isComplete (q k0) = true
      · rw [if_pos hc] at h
        have hr : r = .completed k0 := Option.some_inj.mp h.symm
        constructor
        · intro k hk
          rw [hr] at hk
          cases hk
          exact ⟨le_refl k0, ht, hc, fun j hj1 hj2 => absurd hj2 (by omega)⟩
        · intro k hk
          rw [hr] at hk
          cases hk
      · rw [if_neg hc] at h
        obtain ⟨s1, s2⟩ := ih (k0 + 1) r h
        have hstep : ∀ j, k0 ≤ j → j < k0 + 1 → t j < dl ∧ isComplete (q j) = false := by
          intro j hj1 hj2
          have : j = k0 := by omega
          subst this
          exact ⟨ht, Bool.not_eq_true _ ▸ (by simpa using hc)⟩
        constructor
        · intro k hk
          obtain ⟨g1, g2, g3, g4⟩ := s1 k hk
          refine ⟨by omega, g2, g3, ?_⟩
          intro j hj1 hj2
          by_cases hj : k0 + 1 ≤ j
          · exact g4 j hj hj2
          · have hj0 : j = k0 := by omega
            rw [hj0]
            exact hstep k0 (le_refl _) (by omega)
        · intro k hk
          obtain ⟨g1, g2, g3⟩ := s2 k hk
          refine ⟨by omega, g2, ?_⟩
          intro j hj1 hj2
          by_cases hj : k0 + 1 ≤ j
          · exact g3 j hj hj2
          · have hj0 : j = k0 := by omega
            rw [hj0]
            exact hstep k0 (le_refl _) (by omega)
    · rw [if_neg ht] at h
      have hr : r = .timedOut k0 := Option.some_inj.mp h.symm
      constructor
      · intro k hk
        rw [hr] at hk
        cases hk
      · intro k hk
        rw [hr] at hk
        cases hk
        exact ⟨le_refl k0, le_of_not_lt ht, fun j hj1 hj2 => absurd hj2 (by omega)⟩

/-- Claim C4: the polling loop of `gen_vedio.py::main` stops exactly under
the first of two conditions: the queried payload's status field equals a
recognized completion marker (the string `completed`, the string `done`, or
the number 2), or the wall clock reaches the poll deadline; every failed
query (`None`) and every unrecognized status value is treated as
not-yet-complete and polling continues.  `r` records which condition ended
the loop and at which iteration; all earlier iterations were within the
deadline and unrecognized. -/
theorem poll_loop_stops :
    ∀ (q : Nat → Option JVal) (t : Nat → ℚ) (dl : ℚ) (fuel : Nat) (r : PollResult),
      pollLoop q t dl fuel = some r →
      (∀ k, r = .completed k →
        t k < dl ∧ isComplete (q k) = true ∧
          ∀ j, j < k → t j < dl ∧ isComplete (q j) = false) ∧
      (∀ k, r = .timedOut k →
        dl ≤ t k ∧ ∀ j, j < k → t j < dl ∧ isComplete (q j) = false) := by
  intro q t dl fuel r h
  obtain ⟨s1, s2⟩ := pollLoopGo_spec q t dl fuel 0 r h
  constructor
  · intro k hk
    obtain ⟨_, g2, g3, g4⟩ := s1 k hk
    exact ⟨g2, g3, fun j hj => g4 j (Nat.zero_le j) hj⟩
  · intro k hk
    obtain ⟨_, g2, g3⟩ := s2 k hk
    exact ⟨g2, fun j hj => g3 j (Nat.zero_le j) hj⟩

theorem poll_loop_stops_witness :
    (fun j => (j : ℚ)) 1 < 10 ∧
      isComplete ((fun j => if j = 1 then some (JVal.jstr ("completed").toList) else none) 1) = true :=
  have h := (poll_loop_stops (fun j => if j = 1 then some (JVal.jstr ("completed").toList) else none)
    (fun j => (j : ℚ)) 10 5 (.completed 1) (by decide)).1 1 rfl
  ⟨h.1, h.2.1⟩

theorem substGo_skip (m : Str → Option (Str × Str)) :
    ∀ (a b : Str), substGo m a.length (a ++ b) = subst m b := by
  intro a
  induction a with
  | nil => intro b; rfl
  | cons x a ih =>
    intro b
    show substGo m (a.length + 1) (x :: (a ++ b)) = subst m b
    rw [substGo]
    exact ih b

theorem subst_cons_none (m : Str → Option (Str × Str)) (c : Char) (t : Str)
    (h : m (c :: t) = none) : subst m (c :: t) = c :: subst m t := by
  simp only [subst, substGo, h]

theorem subst_cons_some (m : Str → Option (Str × Str)) (c : Char) (t out consumed rest : Str)
    (hm : m (c :: t) = some (out, rest))
    (hsplit : c :: t = consumed ++ rest) (hne : consumed ≠ []) :
    subst m (c :: t) = out ++ subst m rest := by
  obtain ⟨d, cs, rfl⟩ : ∃ d cs, consumed = d :: cs := by
    cases consumed with
    | nil => exact absurd rfl hne
    | cons d cs => exact ⟨d, cs, rfl⟩
  rw [List.cons_append] at hsplit
  have hc : c = d := by injection hsplit
  have ht : t = cs ++ rest := by injection hsplit
  have hlen : t.length - rest.length = cs.length := by
    rw [ht]; simp
  simp only [subst, substGo, hm]
  rw [hlen, ht, substGo_skip]
  rfl

theorem pyReplace_singleton_empty (c : Char) :
    ∀ l : Str, pyReplace [c] [] l = l.filter (fun x => !(x == c)) := by
  intro l
  induction l with
  | nil => rfl
  | cons a t ih =>
    by_cases hac : a = c
    · subst hac
      have hm : replMatch [a] [] (a :: t) = some ([], t) := by
        simp [replMatch, List.isPrefixOf]
      have hstep := subst_cons_some (replMatch [a] []) a t [] [a] t hm (by simp) (by simp)
      show subst (replMatch [a] []) (a :: t) = _
      rw [hstep]
      show pyReplace [a] [] t = _
      rw [ih]
      simp [List.filter_cons]
    · have hm : replMatch [c] [] (a :: t) = none := by
        have : ([c].isPrefixOf (a :: t)) = false := by
          simp [List.isPrefixOf]
          exact fun h => absurd h.symm hac
        simp [replMatch, this]
      show subst (replMatch [c] []) (a :: t) = _
      rw [subst_cons_none _ _ _ hm]
      show a :: pyReplace [c] [] t = _
      rw [ih]
      simp [List.filter_cons, hac]

/-- Claim C3 (counterexample): the text cleaning operation is not
idempotent.  On the input `A(x)HA`, one application removes the
parenthesized segment and yields `AHA`, and a second application removes
the `AHA` literal that the first pass exposed, yielding the empty string. -/
theorem clean_text_not_idempotent :
    ¬ (clean_text (clean_text ['A', '(', 'x', ')', 'H', 'A']) =
        clean_text ['A', '(', 'x', ')', 'H', 'A']) := by decide

/-- Claim C3 (amended): text cleaning is not idempotent in general — a
second application can differ from the first whenever the first pass newly
exposes one of the removed literal tokens (here `A(x)HA` cleans to `AHA`,
which a second pass deletes), and the same failure occurs for
`normalize_text` under both settings of `expand_acronyms`; the initial
noise-character-stripping stage, by contrast, is idempotent on every
input. -/
theorem clean_text_idempotency_amended :
    clean_text (clean_text ['A', '(', 'x', ')', 'H', 'A']) ≠
        clean_text ['A', '(', 'x', ')', 'H', 'A'] ∧
    (∀ e : Bool, normalize_text e (normalize_text e ['A', '(', 'x', ')', 'H', 'A']) ≠
        normalize_text e ['A', '(', 'x', ')', 'H', 'A']) ∧
    (∀ s : Str, strip_noise (strip_noise s) = strip_noise s) := by
  refine ⟨by decide, ?_, ?_⟩
  · intro e
    cases e
    · decide
    · decide
  · intro s
    unfold strip_noise
    simp only [pyReplace_singleton_empty, List.filter_filter]
    apply List.filter_congr
    intro a _
    cases h1 : (a == '*') <;> cases h2 : (a == '-') <;> cases h3 : (a == '#') <;>
      simp [h1, h2, h3]

theorem isSpacePy_not_digit (c : Char) (h : isSpacePy c = true) : c.isDigit = false := by
  simp only [isSpacePy, Bool.or_eq_true, beq_iff_eq] at h
  rcases h with ((((h | h) | h) | h) | h) | h <;> subst h <;> decide

theorem takeWhile_append_of_all (p : Char → Bool) (a b : Str) (ha : ∀ c ∈ a, p c = true) :
    (a ++ b).takeWhile p = a ++ b.takeWhile p := by
  induction a with
  | nil => simp
  | cons x a ih =>
    have hx := ha x (List.mem_cons_self x a)
    simp only [List.cons_append, List.takeWhile_cons, hx, if_true]
    rw [ih (fun c hc => ha c (List.mem_cons_of_mem x hc))]

theorem dropWhile_append_of_all (p : Char → Bool) (a b : Str) (ha : ∀ c ∈ a, p c = true) :
    (a ++ b).dropWhile p = b.dropWhile p := by
  induction a with
  | nil => simp
  | cons x a ih =>
    have hx := ha x (List.mem_cons_self x a)
    simp only [List.cons_append, List.dropWhile_cons, hx, if_true]
    exact ih (fun c hc => ha c (List.mem_cons_of_mem x hc))

theorem takeWhile_eq_nil_of_head (p : Char → Bool) (l : Str)
    (h : ∀ c, l.head? = some c → p c = false) : l.takeWhile p = [] := by
  cases l with
  | nil => rfl
  | cons x t =>
    have hx := h x rfl
    simp [List.takeWhile_cons, hx]

theorem dropWhile_eq_self_of_head (p : Char → Bool) (l : Str)
    (h : ∀ c, l.head? = some c → p c = false) : l.dropWhile p = l := by
  cases l with
  | nil => rfl
  | cons x t =>
    have hx := h x rfl
    simp [List.dropWhile_cons, hx]

theorem suffix_append_cases (v a b : Str) (h : v <:+ a ++ b) :
    v <:+ b ∨ ∃ a2, a2 <:+ a ∧ a2 ≠ [] ∧ v = a2 ++ b := by
  obtain ⟨p, hp⟩ := h
  rcases List.append_eq_append_iff.mp hp with ⟨e, he1, he2⟩ | ⟨e, he1, he2⟩
  · cases e with
    | nil =>
      left
      simp only [List.nil_append] at he2
      rw [he2]
    | cons c e2 =>
      right
      exact ⟨c :: e2, ⟨p, he1.symm⟩, by simp, he2⟩
  · left
    exact ⟨e, he2.symm⟩

theorem digitRunEq : ∀ (x y u v : Str), x ++ u = y ++ v →
    (∀ c ∈ x, c.isDigit = true) → (∀ c ∈ y, c.isDigit = true) →
    (∀ c, u.head? = some c → c.isDigit = false) →
    (∀ c, v.head? = some c → c.isDigit = false) →
    x = y := by
  intro x
  induction x with
  | nil =>
    intro y u v heq hx hy hu hv
    cases y with
    | nil => rfl
    | cons b ys =>
      exfalso
      simp only [List.nil_append, List.cons_append] at heq
      have hhd : u.head? = some b := by rw [heq]; rfl
      have hb := hu b hhd
      have hb2 := hy b (List.mem_cons_self b ys)
      rw [hb2] at hb
      exact absurd hb (by decide)
  | cons a xs ih =>
    intro y u v heq hx hy hu hv
    cases y with
    | nil =>
      exfalso
      simp only [List.cons_append, List.nil_append] at heq
      have hhd : v.head? = some a := by rw [← heq]; rfl
      have ha := hv a hhd
      have ha2 := hx a (List.mem_cons_self a xs)
      rw [ha2] at ha
      exact absurd ha (by decide)
    | cons b ys =>
      simp only [List.cons_append, List.cons.injEq] at heq
      obtain ⟨hab, htl⟩ := heq
      rw [hab]
      rw [ih ys u v htl (fun c hc => hx c (List.mem_cons_of_mem a hc))
        (fun c hc => hy c (List.mem_cons_of_mem b hc)) hu hv]

theorem head_cond_cons (p : Char → Bool) (x : Char) (t : Str) (hx : p x = false) :
    ∀ c, ((x :: t : Str)).head? = some c → p c = false := by
  intro c hc
  rw [List.head?_cons, Option.some_inj] at hc
  rw [← hc]
  exact hx

theorem bpRepl_eq (S D : Str) : bpRepl S D = f1BP ++ (S ++ (f2BP ++ (D ++ f3BP))) := by
  simp [bpRepl, f1BP, f2BP, f3BP]

theorem bpMatch_at_occ (sys dia post : Str) (hs : sys ≠ []) (hds : ∀ c ∈ sys, c.isDigit = true)
    (hd : dia ≠ []) (hdd : ∀ c ∈ dia, c.isDigit = true) :
    bpMatch (sys ++ '/' :: (dia ++ ' ' :: (mmHgL ++ post))) = some (bpRepl sys dia, post) := by
  have h1 : (sys ++ '/' :: (dia ++ ' ' :: (mmHgL ++ post))).takeWhile Char.isDigit = sys := by
    rw [takeWhile_append_of_all _ _ _ hds,
      takeWhile_eq_nil_of_head _ _ (head_cond_cons _ _ _ (by decide)), List.append_nil]
  have h2 : (sys ++ '/' :: (dia ++ ' ' :: (mmHgL ++ post))).dropWhile Char.isDigit =
      '/' :: (dia ++ ' ' :: (mmHgL ++ post)) := by
    rw [dropWhile_append_of_all _ _ _ hds,
      dropWhile_eq_self_of_head _ _ (head_cond_cons _ _ _ (by decide))]
  have h3 : (dia ++ ' ' :: (mmHgL ++ post)).takeWhile Char.isDigit = dia := by
    rw [takeWhile_append_of_all _ _ _ hdd,
      takeWhile_eq_nil_of_head _ _ (head_cond_cons _ _ _ (by decide)), List.append_nil]
  have h4 : (dia ++ ' ' :: (mmHgL ++ post)).dropWhile Char.isDigit =
      ' ' :: (mmHgL ++ post) := by
    rw [dropWhile_append_of_all _ _ _ hdd,
      dropWhile_eq_self_of_head _ _ (head_cond_cons _ _ _ (by decide))]
  have h5 : ((' ' :: (mmHgL ++ post) : Str)).dropWhile isSpacePy = mmHgL ++ post := by
    rw [List.dropWhile_cons]
    simp only [show isSpacePy ' ' = true from rfl, if_true]
    exact dropWhile_eq_self_of_head _ _ (head_cond_cons _ _ _ (by decide))
  have h6 : mmHgL.isPrefixOf (mmHgL ++ post) = true := by
    rw [List.isPrefixOf_iff_prefix]
    exact List.prefix_append mmHgL post
  have h7 : (mmHgL ++ post).drop 4 = post := List.drop_left mmHgL post
  simp only [bpMatch, h1, h2, h3, h4, h5, h6, h7, if_neg hs, if_neg hd, if_true]

theorem bpMatch_some (l out rest : Str) (h : bpMatch l = some (out, rest)) :
    ∃ d1 d2 w, d1 ≠ [] ∧ (∀ c ∈ d1, c.isDigit = true) ∧ d2 ≠ [] ∧ (∀ c ∈ d2, c.isDigit = true) ∧
      (∀ c ∈ w, isSpacePy c = true) ∧
      l = d1 ++ '/' :: (d2 ++ (w ++ (mmHgL ++ rest))) ∧ out = bpRepl d1 d2 := by
  simp only [bpMatch] at h
  split at h
  · exact Option.noConfusion h
  · next h1 =>
    split at h
    · next c0 r2 heq =>
      split at h
      · next hc0 =>
        split at h
        · exact Option.noConfusion h
        · next h2 =>
          split at h
          · next hpre =>
            rw [Option.some_inj] at h
            have hout : out = bpRepl (l.takeWhile Char.isDigit) (r2.takeWhile Char.isDigit) := by
              have := congrArg Prod.fst h
              simpa using this.symm
            have hrest : rest = ((r2.dropWhile Char.isDigit).dropWhile isSpacePy).drop 4 := by
              have := congrArg Prod.snd h
              simpa using this.symm
            obtain ⟨s, hsplit⟩ := List.isPrefixOf_iff_prefix.mp hpre
            have hs4 : ((r2.dropWhile Char.isDigit).dropWhile isSpacePy).drop 4 = s := by
              rw [← hsplit]
              exact List.drop_left mmHgL s
            refine ⟨l.takeWhile Char.isDigit, r2.takeWhile Char.isDigit,
              (r2.dropWhile Char.isDigit).takeWhile isSpacePy, h1, ?_, h2, ?_, ?_, ?_, hout⟩
            · intro c hc; exact List.mem_takeWhile_imp hc
            · intro c hc; exact List.mem_takeWhile_imp hc
            · intro c hc; exact List.mem_takeWhile_imp hc
            · have hl : l = l.takeWhile Char.isDigit ++ (c0 :: r2) := by
                rw [← heq, List.takeWhile_append_dropWhile]
              have hr4 : (r2.dropWhile Char.isDigit).dropWhile isSpacePy = mmHgL ++ rest := by
                rw [hrest, hs4]
                exact hsplit.symm
              have hr2 : r2 = r2.takeWhile Char.isDigit ++
                  ((r2.dropWhile Char.isDigit).takeWhile isSpacePy ++ (mmHgL ++ rest)) := by
                conv_lhs => rw [← List.takeWhile_append_dropWhile (p := Char.isDigit) (l := r2)]
                congr 1
                conv_lhs => rw [← List.takeWhile_append_dropWhile (p := isSpacePy)
                  (l := r2.dropWhile Char.isDigit)]
                congr 1
              conv_lhs => rw [hl]
              congr 1
              rw [hc0, List.cons.injEq]
              exact ⟨rfl, hr2⟩
          · exact Option.noConfusion h
      · exact Option.noConfusion h
    · next heq => exact Option.noConfusion h

theorem infix_append_left (u t s : Str) (h : u <:+: t) : u <:+: s ++ t := by
  obtain ⟨A, B, hAB⟩ := h
  exact ⟨s ++ A, B, by rw [← hAB]; simp⟩

theorem heads_eq_of_append_eq (a : Str) (x : Char) (xs : Str) (b : Str) (y : Char) (ys : Str)
    (h : (x :: xs) ++ a = (y :: ys) ++ b) : x = y := by
  simp only [List.cons_append, List.cons.injEq] at h
  exact h.1

theorem subBP_at_front (post sys dia : Str) (hs : sys ≠ []) (hds : ∀ c ∈ sys, c.isDigit = true)
    (hd : dia ≠ []) (hdd : ∀ c ∈ dia, c.isDigit = true) :
    subBP (sys ++ '/' :: (dia ++ ' ' :: (mmHgL ++ post))) = bpRepl sys dia ++ subBP post := by
  have hm := bpMatch_at_occ sys dia post hs hds hd hdd
  cases sys with
  | nil => exact absurd rfl hs
  | cons s0 ss =>
    have hform : ((s0 :: ss : Str)) ++ '/' :: (dia ++ ' ' :: (mmHgL ++ post)) =
        s0 :: (ss ++ '/' :: (dia ++ ' ' :: (mmHgL ++ post))) := by simp
    rw [hform] at hm ⊢
    exact subst_cons_some bpMatch s0 (ss ++ '/' :: (dia ++ ' ' :: (mmHgL ++ post)))
      (bpRepl (s0 :: ss) dia) ((s0 :: ss) ++ '/' :: (dia ++ ' ' :: mmHgL)) post hm
      (by simp) (by simp)

theorem subBP_has_bpRepl :
    ∀ (n : Nat) (pre : Str), pre.length ≤ n → ∀ (post sys dia : Str),
      sys ≠ [] → (∀ c ∈ sys, c.isDigit = true) → dia ≠ [] → (∀ c ∈ dia, c.isDigit = true) →
      ∃ S, sys <:+ S ∧ S ≠ [] ∧ (∀ c ∈ S, c.isDigit = true) ∧
        bpRepl S dia <:+: subBP (pre ++ (sys ++ '/' :: (dia ++ ' ' :: (mmHgL ++ post)))) := by
  intro n
  induction n with
  | zero =>
    intro pre hlen post sys dia hs hds hd hdd
    have hpre : pre = [] := List.length_eq_zero.mp (Nat.le_zero.mp hlen)
    subst hpre
    refine ⟨sys, List.suffix_refl sys, hs, hds, ?_⟩
    rw [List.nil_append, subBP_at_front post sys dia hs hds hd hdd]
    exact ⟨[], subBP post, by simp⟩
  | succ n ih =>
    intro pre hlen post sys dia hs hds hd hdd
    cases pre with
    | nil =>
      refine ⟨sys, List.suffix_refl sys, hs, hds, ?_⟩
      rw [List.nil_append, subBP_at_front post sys dia hs hds hd hdd]
      exact ⟨[], subBP post, by simp⟩
    | cons c pre2 =>
      have hlen2 : pre2.length ≤ n := by
        simp only [List.length_cons] at hlen
        omega
      have hform : ((c :: pre2 : Str)) ++ (sys ++ '/' :: (dia ++ ' ' :: (mmHgL ++ post))) =
          c :: (pre2 ++ (sys ++ '/' :: (dia ++ ' ' :: (mmHgL ++ post)))) := by simp
      rw [hform]
      cases hm : bpMatch (c :: (pre2 ++ (sys ++ '/' :: (dia ++ ' ' :: (mmHgL ++ post))))) with
      | none =>
        have hrec : subBP (c :: (pre2 ++ (sys ++ '/' :: (dia ++ ' ' :: (mmHgL ++ post))))) =
            c :: subBP (pre2 ++ (sys ++ '/' :: (dia ++ ' ' :: (mmHgL ++ post)))) :=
          subst_cons_none bpMatch c _ hm
        obtain ⟨S, h1, h2, h3, h4⟩ := ih pre2 hlen2 post sys dia hs hds hd hdd
        refine ⟨S, h1, h2, h3, ?_⟩
        rw [hrec]
        exact List.infix_cons h4
      | some pr =>
        obtain ⟨out, rest⟩ := pr
        obtain ⟨d1, d2, w, hd1ne, hd1dig, hd2ne, hd2dig, hwsp, hldec, hout⟩ :=
          bpMatch_some _ _ _ hm
        have hconsne : d1 ++ '/' :: (d2 ++ (w ++ mmHgL)) ≠ ([] : Str) := by
          cases d1 <;> simp
        have hldec2 : c :: (pre2 ++ (sys ++ '/' :: (dia ++ ' ' :: (mmHgL ++ post)))) =
            (d1 ++ '/' :: (d2 ++ (w ++ mmHgL))) ++ rest := by
          rw [hldec]; simp
        have hsub : subBP (c :: (pre2 ++ (sys ++ '/' :: (dia ++ ' ' :: (mmHgL ++ post))))) =
            out ++ subBP rest :=
          subst_cons_some bpMatch c _ out (d1 ++ '/' :: (d2 ++ (w ++ mmHgL))) rest hm hldec2 hconsne
        have hcomp : ((c :: pre2 : Str)) ++ (sys ++ '/' :: (dia ++ ' ' :: (mmHgL ++ post))) =
            (d1 ++ '/' :: (d2 ++ (w ++ mmHgL))) ++ rest := by
          rw [hform]; exact hldec2
        rcases List.append_eq_append_iff.mp hcomp with ⟨e, he1, he2⟩ | ⟨e, he1, he2⟩
        · -- the consumed match reaches into or up to the occurrence
          cases e with
          | nil =>
            -- boundary: the match consumed exactly the prefix, occurrence untouched
            simp only [List.nil_append] at he2
            obtain ⟨S, h1, h2, h3, h4⟩ := ih [] (Nat.zero_le n) post sys dia hs hds hd hdd
            rw [List.nil_append] at h4
            refine ⟨S, h1, h2, h3, ?_⟩
            rw [hsub, ← he2]
            exact infix_append_left _ _ _ h4
          | cons c1 e2 =>
            -- overlap: the occurrence starts inside the consumed match
            have hesfx : (c1 :: e2 : Str) <:+ d1 ++ '/' :: (d2 ++ (w ++ mmHgL)) :=
              ⟨c :: pre2, he1.symm⟩
            cases sys with
            | nil => exact absurd rfl hs
            | cons s0 ss =>
              have hs0dig : s0.isDigit = true := hds s0 (List.mem_cons_self s0 ss)
              rcases suffix_append_cases _ _ _ hesfx with hcase1 | ⟨d1sfx, hd1sfx, hd1sfxne, heeq⟩
              · rcases List.suffix_cons_iff.mp hcase1 with heq1 | hcase2
                · -- e = '/' :: …, but the occurrence starts with a digit
                  exfalso
                  rw [heq1] at he2
                  have h0 := heads_eq_of_append_eq _ s0 ss _ '/' _ he2
                  rw [h0] at hs0dig
                  exact Bool.noConfusion hs0dig
                · rcases suffix_append_cases _ _ _ hcase2 with hcase3 | ⟨d2sfx, hd2sfx, hd2sfxne, heeq2⟩
                  · rcases suffix_append_cases _ _ _ hcase3 with hcase4 | ⟨wsfx, hwsfx, hwsfxne, heeq3⟩
                    · -- e a suffix of the literal mmHg: heads clash
                      exfalso
                      have hc1mem : c1 ∈ mmHgL := hcase4.subset (List.mem_cons_self c1 e2)
                      have hc1nd : c1.isDigit = false := by
                        have hall : ∀ x ∈ mmHgL, x.isDigit = false := by decide
                        exact hall c1 hc1mem
                      have h0 := heads_eq_of_append_eq _ s0 ss _ c1 e2 he2
                      rw [h0, hc1nd] at hs0dig
                      exact Bool.noConfusion hs0dig
                    · -- e starts inside the whitespace run: heads clash
                      exfalso
                      cases wsfx with
                      | nil => exact absurd rfl hwsfxne
                      | cons x xs =>
                        rw [heeq3, List.cons_append, List.cons_append] at he2
                        have h0 := heads_eq_of_append_eq _ s0 ss _ x _ he2
                        have hxsp : isSpacePy x = true :=
                          hwsp x (hwsfx.subset (List.mem_cons_self x xs))
                        rw [h0, isSpacePy_not_digit x hxsp] at hs0dig
                        exact Bool.noConfusion hs0dig
                  · -- e starts inside the second digit run: impossible shape
                    exfalso
                    rw [heeq2, List.append_assoc, List.append_assoc] at he2
                    have hvhead : ∀ cc, (w ++ (mmHgL ++ rest)).head? = some cc → cc.isDigit = false := by
                      cases w with
                      | nil =>
                        intro cc hcc
                        simp only [List.nil_append, mmHgL, List.cons_append, List.head?_cons,
                          Option.some_inj] at hcc
                        rw [← hcc]
                        decide
                      | cons wc wt =>
                        intro cc hcc
                        rw [List.cons_append, List.head?_cons, Option.some_inj] at hcc
                        rw [← hcc]
                        exact isSpacePy_not_digit wc (hwsp wc (List.mem_cons_self wc wt))
                    have hrun := digitRunEq (s0 :: ss) d2sfx _ _ he2 hds
                      (fun cc hcc => hd2dig cc (hd2sfx.subset hcc))
                      (head_cond_cons _ _ _ (by decide)) hvhead
                    rw [← hrun] at he2
                    simp only [List.cons_append, List.cons.injEq] at he2
                    have hcancel := List.append_cancel_left he2.2
                    cases w with
                    | nil =>
                      simp only [List.nil_append, mmHgL, List.cons_append, List.cons.injEq] at hcancel
                      exact absurd hcancel.1 (by decide)
                    | cons wc wt =>
                      rw [List.cons_append, List.cons.injEq] at hcancel
                      have hwcsp : isSpacePy wc = true := hwsp wc (List.mem_cons_self wc wt)
                      rw [← hcancel.1] at hwcsp
                      exact Bool.noConfusion (by simpa using hwcsp)
              · -- e = d1sfx ++ '/' :: …: the occurrence aligns with the match
                rw [heeq, List.append_assoc, List.cons_append] at he2
                have hrun := digitRunEq (s0 :: ss) d1sfx _ _ he2 hds
                  (fun cc hcc => hd1dig cc (hd1sfx.subset hcc))
                  (head_cond_cons _ _ _ (by decide)) (head_cond_cons _ _ _ (by decide))
                rw [← hrun] at he2
                simp only [List.cons_append, List.cons.injEq] at he2
                have htl0 := List.append_cancel_left he2.2
                rw [List.cons.injEq] at htl0
                have htl := htl0.2
                rw [List.append_assoc, List.append_assoc] at htl
                have hvhead : ∀ cc, (w ++ (mmHgL ++ rest)).head? = some cc → cc.isDigit = false := by
                  cases w with
                  | nil =>
                    intro cc hcc
                    simp only [List.nil_append, mmHgL, List.cons_append, List.head?_cons,
                      Option.some_inj] at hcc
                    rw [← hcc]
                    decide
                  | cons wc wt =>
                    intro cc hcc
                    rw [List.cons_append, List.head?_cons, Option.some_inj] at hcc
                    rw [← hcc]
                    exact isSpacePy_not_digit wc (hwsp wc (List.mem_cons_self wc wt))
                have hdia := digitRunEq dia d2 _ _ htl hdd hd2dig
                  (head_cond_cons _ _ _ (by decide)) hvhead
                refine ⟨d1, ?_, hd1ne, hd1dig, ?_⟩
                · rw [hrun]
                  exact hd1sfx
                · rw [hsub, hout, ← hdia]
                  exact ⟨[], subBP rest, by simp⟩
        · -- the match lies entirely within the prefix: recurse on the shorter prefix
          have hpos : 0 < (d1 ++ '/' :: (d2 ++ (w ++ mmHgL))).length :=
            List.length_pos.mpr hconsne
          have hle := congrArg List.length he1
          simp only [List.length_cons, List.length_append] at hle hpos
          have hlen3 : e.length ≤ n := by omega
          obtain ⟨S, h1, h2, h3, h4⟩ := ih e hlen3 post sys dia hs hds hd hdd
          refine ⟨S, h1, h2, h3, ?_⟩
          rw [hsub, he2]
          exact infix_append_left _ _ _ h4

theorem unitMatch_none_head_nondigit (lits : List Str) (suf l : Str)
    (h : ∀ c, l.head? = some c → c.isDigit = false) : unitMatch lits suf l = none := by
  have ht : l.takeWhile Char.isDigit = [] := takeWhile_eq_nil_of_head _ _ h
  simp [unitMatch, ht]

theorem unitMatch_none_digit_mi (lits : List Str) (suf : Str)
    (hlits : ∀ p ∈ lits, ∀ z : Str, p.isPrefixOf ('m' :: 'i' :: z) = false)
    (d : Str) (hd : ∀ c ∈ d, c.isDigit = true) (z : Str) :
    unitMatch lits suf (d ++ ' ' :: 'm' :: 'i' :: z) = none := by
  by_cases hdnil : d = []
  · subst hdnil
    exact unitMatch_none_head_nondigit _ _ _ (head_cond_cons _ _ _ (by decide))
  · have h1 : (d ++ ' ' :: 'm' :: 'i' :: z).takeWhile Char.isDigit = d := by
      rw [takeWhile_append_of_all _ _ _ hd,
        takeWhile_eq_nil_of_head _ _ (head_cond_cons _ _ _ (by decide)), List.append_nil]
    have h2 : (d ++ ' ' :: 'm' :: 'i' :: z).dropWhile Char.isDigit = ' ' :: 'm' :: 'i' :: z := by
      rw [dropWhile_append_of_all _ _ _ hd,
        dropWhile_eq_self_of_head _ _ (head_cond_cons _ _ _ (by decide))]
    have h3 : ((' ' :: 'm' :: 'i' :: z : Str)).dropWhile isSpacePy = 'm' :: 'i' :: z := by
      rw [List.dropWhile_cons]
      simp only [show isSpacePy ' ' = true from rfl, if_true]
      exact dropWhile_eq_self_of_head _ _ (head_cond_cons _ _ _ (by decide))
    have h4 : lits.find? (fun p => p.isPrefixOf ('m' :: 'i' :: z)) = none := by
      rw [List.find?_eq_none]
      intro p hp
      simp [hlits p hp z]
    simp [unitMatch, h1, h2, h3, h4, hdnil]

theorem unitMatch_consumed (lits : List Str) (suf l out rest : Str)
    (h : unitMatch lits suf l = some (out, rest)) :
    ∃ consumed, consumed ≠ [] ∧ l = consumed ++ rest ∧
      ∀ c ∈ consumed, (c.isDigit || isSpacePy c || lits.any (fun p => p.contains c)) = true := by
  simp only [unitMatch] at h
  split at h
  · exact Option.noConfusion h
  · next h1 =>
    split at h
    · next p hfind =>
      rw [Option.some_inj] at h
      have hpmem : p ∈ lits := List.mem_of_find?_eq_some hfind
      have hppre : p.isPrefixOf ((l.dropWhile Char.isDigit).dropWhile isSpacePy) = true := by
        have := List.find?_some hfind
        simpa using this
      obtain ⟨s, hs⟩ := List.isPrefixOf_iff_prefix.mp hppre
      have hrest : rest = s := by
        have := congrArg Prod.snd h
        simp only at this
        rw [← this, ← hs]
        exact List.drop_left p s
      refine ⟨l.takeWhile Char.isDigit ++ ((l.dropWhile Char.isDigit).takeWhile isSpacePy ++ p),
        ?_, ?_, ?_⟩
      · cases htk : l.takeWhile Char.isDigit with
        | nil => exact absurd htk h1
        | cons a b => simp
      · conv_lhs => rw [← List.takeWhile_append_dropWhile (p := Char.isDigit) (l := l)]
        rw [List.append_assoc, List.append_assoc]
        congr 1
        conv_lhs => rw [← List.takeWhile_append_dropWhile (p := isSpacePy)
          (l := l.dropWhile Char.isDigit)]
        congr 1
        rw [hrest, ← hs]
      · intro c hc
        rcases List.mem_append.mp hc with hc1 | hc2
        · have := List.mem_takeWhile_imp hc1
          simp [this]
        · rcases List.mem_append.mp hc2 with hc3 | hc4
          · have := List.mem_takeWhile_imp hc3
            simp [this]
          · simp only [Bool.or_eq_true]
            right
            simp only [List.any_eq_true, List.contains, List.elem_eq_mem, decide_eq_true_eq]
            exact ⟨p, hpmem, hc4⟩
    · exact Option.noConfusion h

theorem subst_through (m : Str → Option (Str × Str)) (u : Str)
    (hustart : ∀ v y2, v <:+ u → v ≠ [] → m (v ++ y2) = none) :
    ∀ v, v <:+ u → ∀ y, subst m (v ++ y) = v ++ subst m y := by
  intro v
  induction v with
  | nil => intro _ y; simp
  | cons c v2 ih =>
    intro hv y
    have hm := hustart (c :: v2) y hv (by simp)
    rw [List.cons_append] at hm
    rw [List.cons_append, subst_cons_none m c (v2 ++ y) hm,
      ih ((List.suffix_cons c v2).trans hv) y, List.cons_append]

theorem subst_keeps_infix (m : Str → Option (Str × Str)) (cc : Char → Bool)
    (Hcons : ∀ l out rest, m l = some (out, rest) →
      ∃ consumed, consumed ≠ [] ∧ l = consumed ++ rest ∧ ∀ c ∈ consumed, cc c = true)
    (u : Str) (hune : u ≠ []) (huh : ∀ c, u.head? = some c → cc c = false)
    (hustart : ∀ v y2, v <:+ u → v ≠ [] → m (v ++ y2) = none) :
    ∀ (n : Nat) (x : Str), x.length ≤ n → ∀ y, ∃ A B, subst m (x ++ (u ++ y)) = A ++ (u ++ B) := by
  intro n
  induction n with
  | zero =>
    intro x hx y
    have hxnil : x = [] := List.length_eq_zero.mp (Nat.le_zero.mp hx)
    subst hxnil
    rw [List.nil_append, subst_through m u hustart u (List.suffix_refl u) y]
    exact ⟨[], subst m y, by simp⟩
  | succ n ih =>
    intro x hx y
    cases x with
    | nil =>
      rw [List.nil_append, subst_through m u hustart u (List.suffix_refl u) y]
      exact ⟨[], subst m y, by simp⟩
    | cons c x2 =>
      have hx2 : x2.length ≤ n := by
        simp only [List.length_cons] at hx
        omega
      rw [List.cons_append]
      cases hm : m (c :: (x2 ++ (u ++ y))) with
      | none =>
        have hrec := subst_cons_none m c _ hm
        obtain ⟨A, B, hAB⟩ := ih x2 hx2 y
        exact ⟨c :: A, B, by rw [hrec, hAB, List.cons_append]⟩
      | some pr =>
        obtain ⟨out, rest⟩ := pr
        obtain ⟨consumed, hcne, hcdec, hcch⟩ := Hcons _ _ _ hm
        have hsub : subst m (c :: (x2 ++ (u ++ y))) = out ++ subst m rest :=
          subst_cons_some m c _ out consumed rest hm hcdec hcne
        have hcomp : ((c :: x2 : Str)) ++ (u ++ y) = consumed ++ rest := by
          rw [List.cons_append]; exact hcdec
        rcases List.append_eq_append_iff.mp hcomp with ⟨e, he1, he2⟩ | ⟨e, he1, he2⟩
        · cases e with
          | nil =>
            simp only [List.nil_append] at he2
            rw [hsub, ← he2, subst_through m u hustart u (List.suffix_refl u) y]
            exact ⟨out, subst m y, rfl⟩
          | cons c1 e2 =>
            exfalso
            cases u with
            | nil => exact absurd rfl hune
            | cons u0 ut =>
              have h0 := heads_eq_of_append_eq _ u0 ut _ c1 e2 he2
              have hc1mem : c1 ∈ consumed := by
                rw [he1]
                exact List.mem_append_right _ (List.mem_cons_self c1 e2)
              have htr := hcch c1 hc1mem
              have hfl := huh u0 rfl
              rw [h0, htr] at hfl
              exact Bool.noConfusion hfl
        · have hpos : 0 < consumed.length := List.length_pos.mpr hcne
          have hle := congrArg List.length he1
          simp only [List.length_cons, List.length_append] at hle
          have hlen3 : e.length ≤ n := by omega
          obtain ⟨A, B, hAB⟩ := ih e hlen3 y
          exact ⟨out ++ A, B, by rw [hsub, he2, hAB, List.append_assoc]⟩

theorem unitMatch_none_sfx_nondigit (lits : List Str) (suf : Str) (f rest2 y2 a2 : Str)
    (ha2 : a2 <:+ f) (ha2ne : a2 ≠ []) (hf : ∀ c ∈ f, c.isDigit = false) :
    unitMatch lits suf ((a2 ++ rest2) ++ y2) = none := by
  cases a2 with
  | nil => exact absurd rfl ha2ne
  | cons x xs =>
    have hx : x.isDigit = false := hf x (ha2.subset (List.mem_cons_self x xs))
    rw [List.cons_append, List.cons_append]
    exact unitMatch_none_head_nondigit _ _ _ (head_cond_cons _ _ _ hx)

theorem f2BP_decomp : f2BP = ' ' :: 'm' :: 'i' ::
    ("llimeters of mercury and a diastolic blood pressure of ").toList := by decide

theorem f3BP_decomp : f3BP = ' ' :: 'm' :: 'i' :: ("llimeters of mercury").toList := by decide

theorem bpRepl_no_unit_match (lits : List Str) (suf : Str)
    (hlits : ∀ p ∈ lits, ∀ z : Str, p.isPrefixOf ('m' :: 'i' :: z) = false)
    (S D : Str) (hS : ∀ c ∈ S, c.isDigit = true) (hD : ∀ c ∈ D, c.isDigit = true) :
    ∀ v y2, v <:+ bpRepl S D → v ≠ [] → unitMatch lits suf (v ++ y2) = none := by
  intro v y2 hv hvne
  rw [bpRepl_eq] at hv
  rcases suffix_append_cases _ _ _ hv with hv1 | ⟨a2, ha2, ha2ne, hveq⟩
  · rcases suffix_append_cases _ _ _ hv1 with hv2 | ⟨S2, hS2, hS2ne, hveq⟩
    · rcases suffix_append_cases _ _ _ hv2 with hv3 | ⟨f2sfx, hf2sfx, hf2ne, hveq⟩
      · rcases suffix_append_cases _ _ _ hv3 with hv4 | ⟨D2, hD2, hD2ne, hveq⟩
        · -- v a nonempty suffix of the final literal text
          cases v with
          | nil => exact absurd rfl hvne
          | cons x xs =>
            have hx : x.isDigit = false := by
              have hmem : x ∈ f3BP := hv4.subset (List.mem_cons_self x xs)
              have hall : ∀ c ∈ f3BP, c.isDigit = false := by decide
              exact hall x hmem
            rw [List.cons_append]
            exact unitMatch_none_head_nondigit _ _ _ (head_cond_cons _ _ _ hx)
        · -- v = D2 ++ f3BP with D2 a nonempty digit run
          rw [hveq, f3BP_decomp, List.append_assoc]
          simp only [List.cons_append]
          exact unitMatch_none_digit_mi lits suf hlits D2
            (fun c hc => hD c (hD2.subset hc)) _
      · -- v starts inside the middle literal text
        rw [hveq]
        have hall : ∀ c ∈ f2BP, c.isDigit = false := by decide
        exact unitMatch_none_sfx_nondigit lits suf f2BP _ y2 f2sfx hf2sfx hf2ne hall
    · -- v = S2 ++ (f2BP ++ …) with S2 a nonempty digit run
      rw [hveq, f2BP_decomp, List.append_assoc]
      simp only [List.cons_append]
      exact unitMatch_none_digit_mi lits suf hlits S2
        (fun c hc => hS c (hS2.subset hc)) _
  · -- v starts inside the leading literal text
    rw [hveq]
    have hall : ∀ c ∈ f1BP, c.isDigit = false := by decide
    exact unitMatch_none_sfx_nondigit lits suf f1BP _ y2 a2 ha2 ha2ne hall

theorem unit_subst_keeps_bpRepl (lits : List Str) (suf : Str)
    (hlits : ∀ p ∈ lits, ∀ z : Str, p.isPrefixOf ('m' :: 'i' :: z) = false)
    (hcca : (('a').isDigit || isSpacePy 'a' || lits.any (fun p => p.contains 'a')) = false)
    (S D : Str) (hSdig : ∀ c ∈ S, c.isDigit = true) (hDdig : ∀ c ∈ D, c.isDigit = true)
    (t : Str) (h : bpRepl S D <:+: t) :
    bpRepl S D <:+: subst (unitMatch lits suf) t := by
  obtain ⟨A, B, hAB⟩ := h
  have hhead : ∀ c, (bpRepl S D).head? = some c →
      (c.isDigit || isSpacePy c || lits.any (fun p => p.contains c)) = false := by
    intro c hc
    have hha : (bpRepl S D).head? = some 'a' := by rw [bpRepl_eq]; rfl
    rw [hha, Option.some_inj] at hc
    rw [← hc]
    exact hcca
  have hne : bpRepl S D ≠ [] := by
    rw [bpRepl_eq]
    simp [f1BP]
  obtain ⟨A2, B2, hAB2⟩ := subst_keeps_infix (unitMatch lits suf)
    (fun c => c.isDigit || isSpacePy c || lits.any (fun p => p.contains c))
    (fun l out rest hm => unitMatch_consumed lits suf l out rest hm)
    (bpRepl S D) hne hhead
    (bpRepl_no_unit_match lits suf hlits S D hSdig hDdig)
    A.length A le_rfl B
  refine ⟨A2, B2, ?_⟩
  rw [List.append_assoc, ← hAB2, ← List.append_assoc, hAB]

theorem mlLits_no_mi :
    ∀ p ∈ [(['m', 'L'] : Str), ['m', 'l']], ∀ z : Str, p.isPrefixOf ('m' :: 'i' :: z) = false := by
  intro p hp z
  rcases List.mem_cons.mp hp with rfl | hp2
  · simp [List.isPrefixOf]
  · rcases List.mem_cons.mp hp2 with rfl | hp3
    · simp [List.isPrefixOf]
    · simp at hp3

theorem mmHgLits_no_mi :
    ∀ p ∈ [mmHgL], ∀ z : Str, p.isPrefixOf ('m' :: 'i' :: z) = false := by
  intro p hp z
  rcases List.mem_cons.mp hp with rfl | hp2
  · simp [mmHgL, List.isPrefixOf]
  · simp at hp2

theorem ugLits_no_mi :
    ∀ p ∈ [(['μ', 'g', '/', 'L'] : Str)], ∀ z : Str, p.isPrefixOf ('m' :: 'i' :: z) = false := by
  intro p hp z
  rcases List.mem_cons.mp hp with rfl | hp2
  · simp [List.isPrefixOf]
  · simp at hp2

/-- Claim C7: for every input string containing a blood-pressure pattern
`<digits>/<digits> mmHg`, the unit-conversion step replaces it with an
expansion containing both `<systolic> millimeters of mercury` and
`<diastolic> millimeters of mercury`.  The input is an arbitrary string
decomposed around the occurrence (`pre`/`post` arbitrary, `sys`/`dia`
nonempty digit runs); on the systolic side the regex may, as in Python,
extend the digit group to the left, in which case the claimed substring is a
suffix of the matched group and containment still holds. -/
theorem bp_pattern_expansion :
    ∀ (pre post sys dia : Str),
      sys ≠ [] → (∀ c ∈ sys, c.isDigit = true) → dia ≠ [] → (∀ c ∈ dia, c.isDigit = true) →
      (sys ++ (" millimeters of mercury").toList) <:+:
          convert_medical_units (pre ++ (sys ++ '/' :: (dia ++ ' ' :: (mmHgL ++ post)))) ∧
      (dia ++ (" millimeters of mercury").toList) <:+:
          convert_medical_units (pre ++ (sys ++ '/' :: (dia ++ ' ' :: (mmHgL ++ post)))) := by
  intro pre post sys dia hs hds hd hdd
  obtain ⟨S, hSsfx, hSne, hSdig, hinf⟩ :=
    subBP_has_bpRepl pre.length pre le_rfl post sys dia hs hds hd hdd
  have h1 : bpRepl S dia <:+:
      subML (subBP (pre ++ (sys ++ '/' :: (dia ++ ' ' :: (mmHgL ++ post))))) :=
    unit_subst_keeps_bpRepl _ _ mlLits_no_mi (by decide) S dia hSdig hdd _ hinf
  have h2 : bpRepl S dia <:+:
      subMMHG (subML (subBP (pre ++ (sys ++ '/' :: (dia ++ ' ' :: (mmHgL ++ post)))))) :=
    unit_subst_keeps_bpRepl _ _ mmHgLits_no_mi (by decide) S dia hSdig hdd _ h1
  have h3 : bpRepl S dia <:+:
      convert_medical_units (pre ++ (sys ++ '/' :: (dia ++ ' ' :: (mmHgL ++ post)))) :=
    unit_subst_keeps_bpRepl _ _ ugLits_no_mi (by decide) S dia hSdig hdd _ h2
  have hsys : (sys ++ (" millimeters of mercury").toList) <:+: bpRepl S dia := by
    obtain ⟨S0, hS0⟩ := hSsfx
    refine ⟨f1BP ++ S0,
      (" and a diastolic blood pressure of ").toList ++ (dia ++ f3BP), ?_⟩
    rw [bpRepl_eq, ← hS0]
    have hf2 : f2BP = (" millimeters of mercury").toList ++
        (" and a diastolic blood pressure of ").toList := by decide
    rw [hf2]
    simp [List.append_assoc]
  have hdia2 : (dia ++ (" millimeters of mercury").toList) <:+: bpRepl S dia := by
    refine ⟨f1BP ++ (S ++ f2BP), [], ?_⟩
    rw [bpRepl_eq]
    simp [List.append_assoc, f3BP]
  exact ⟨hsys.trans h3, hdia2.trans h3⟩

theorem bp_pattern_expansion_witness :
    (('1' :: '2' :: '0' :: (" millimeters of mercury").toList : Str)) <:+:
        convert_medical_units (([] : Str) ++ (['1', '2', '0'] ++ '/' ::
          (['8', '0'] ++ ' ' :: (mmHgL ++ ([] : Str))))) ∧
    (('8' :: '0' :: (" millimeters of mercury").toList : Str)) <:+:
        convert_medical_units (([] : Str) ++ (['1', '2', '0'] ++ '/' ::
          (['8', '0'] ++ ' ' :: (mmHgL ++ ([] : Str))))) :=
  bp_pattern_expansion [] [] ['1', '2', '0'] ['8', '0']
    (by decide) (by decide) (by decide) (by decide)
